import Mathlib

/-!
Verification of the shell-command execution subsystem (command gate,
credential cache, confirmation coordinator, process executor and output
aggregator) of the repository, as a shallow embedding in Lean.

Conventions of the embedding:
* JS strings are Lean `String`s; where proofs need structural recursion we
  work on `List Char` (a Lean `String` is a structure holding exactly that
  list) and convert at the boundary.
* JS `Buffer`s (raw byte chunks) are `List Nat`.
* JS timestamps (`Date.now()`) are `Int`; `undefined` is `Option.none`.
* JS truthiness of a string (empty string is falsy) and of a number
  (`0` is falsy) is modelled explicitly where the source relies on it.
* Third-party library functions the source calls (`strip-ansi`,
  Node's incremental `StringDecoder`) are universally-quantified function
  parameters of the model: every theorem below holds for any choice.
* Event-driven callback code (`.on('data')`, `.on('exit')`, abort
  listeners) is modelled as a step function over an explicit state,
  folded over an arbitrary list of events.
-/

namespace GeminiShell

/-! ## JS string primitives -/

/-- The backtick character (written by code point to keep source plain). -/
def backquoteChar : Char := Char.ofNat 96

/-- The `{` character. -/
def lbraceChar : Char := Char.ofNat 123

/-- The `}` character. -/
def rbraceChar : Char := Char.ofNat 125

/-- JS whitespace, as used by `String.prototype.trim` and the regex class
`\s` (ASCII portion: space, tab, LF, CR, VT, FF). -/
def jsIsSpace (c : Char) : Bool :=
  c == ' ' || c == '\t' || c == '\n' || c == '\r' || c == '\x0b' || c == '\x0c'

/-- `s.trim()` on a character list: drop leading and trailing whitespace. -/
def trimL (l : List Char) : List Char :=
  ((l.dropWhile jsIsSpace).reverse.dropWhile jsIsSpace).reverse

/-- `s.trim()` at the `String` level. -/
def jsTrimS (s : String) : String := ⟨trimL s.toList⟩

/-- `s.replace(/\s+/g, ' ')`: each maximal run of whitespace becomes a
single space (structural two-lookahead formulation, so that the kernel can
evaluate it). -/
def squeezeWs : List Char → List Char
  | [] => []
  | [c] => if jsIsSpace c then [' '] else [c]
  | a :: b :: rest =>
    if jsIsSpace a && jsIsSpace b then squeezeWs (b :: rest)
    else (if jsIsSpace a then ' ' else a) :: squeezeWs (b :: rest)

/-- `normalize` from `ShellTool.isCommandAllowed`:
`cmd.trim().replace(/\s+/g, ' ')`. -/
def normalizeL (l : List Char) : List Char := squeezeWs (trimL l)

/-- Normal form of whitespace inside a `normalize`d command: every
whitespace character is a single `' '` followed by a non-space, and the
last character is not whitespace (used to analyse prefix matching of
normalized commands). -/
def wsCanon : List Char → Bool
  | [] => true
  | [c] => !(jsIsSpace c)
  | a :: b :: rest =>
    (!(jsIsSpace a) || (a == ' ' && !(jsIsSpace b))) && wsCanon (b :: rest)

/-- `a.includes(pat)`: substring occurrence. -/
def jsIncludesL (s pat : List Char) : Bool :=
  match s with
  | [] => pat.isEmpty
  | _ :: rest => pat.isPrefixOf s || jsIncludesL rest pat

/-- `a.includes(pat)` at the `String` level. -/
def jsIncludes (s pat : String) : Bool := jsIncludesL s.toList pat.toList

/-- `s.startsWith(p)`. -/
def jsStartsWith (s p : String) : Bool := p.toList.isPrefixOf s.toList

/-- `s.endsWith(p)`. -/
def jsEndsWith (s p : String) : Bool := p.toList.isSuffixOf s.toList

/-! ## CommandGate (`ShellTool.isCommandAllowed`, src/unnamed/part_000
lines 102-148) -/

/-- `SHELL_TOOL_NAMES = [ShellTool.name, ShellTool.Name]`: the JS class
name and the static `Name` field. -/
def shellToolNames : List (List Char) :=
  ["ShellTool".toList, "run_shell_command".toList]

/-- The inner `isPrefixedBy`: `cmd` starts with `prefix` and the prefix
boundary is the end of the string or a space. -/
def isPrefixedByL (cmd pfx : List Char) : Bool :=
  pfx.isPrefixOf cmd && (cmd.length == pfx.length || cmd.get? pfx.length == some ' ')

/-- The inner `extractCommands`: an entry `"<toolName>(<body>)"` (for the
first matching tool name) contributes `normalize(<body>)`; anything else
contributes nothing. -/
def extractCommands (tools : List (List Char)) : List (List Char) :=
  tools.flatMap fun tool =>
    match shellToolNames.find? (fun nm =>
        (nm ++ ['(']).isPrefixOf tool && tool.getLast? == some ')') with
    | some nm => [normalizeL ((tool.drop (nm.length + 1)).dropLast)]
    | none => []

/-- `command.split(/&&|\|\||\||;/)`: left-to-right scan trying `&&`,
then `||`, then `|`, then `;` at each position (a single `&` is not a
separator). -/
def splitSeps : List Char → List (List Char)
  | [] => [[]]
  | '&' :: '&' :: rest => [] :: splitSeps rest
  | '|' :: '|' :: rest => [] :: splitSeps rest
  | '|' :: rest => [] :: splitSeps rest
  | ';' :: rest => [] :: splitSeps rest
  | c :: rest =>
    match splitSeps rest with
    | [] => [[c]]
    | s :: ss => (c :: s) :: ss

/-- `ShellTool.isCommandAllowed(command)`, with the session policy
(`config.getCoreTools()`, `config.getExcludeTools()`) passed explicitly.
The JS `Set`s are kept as lists (only membership is ever used). -/
def isCommandAllowed (coreTools excludeTools : List (List Char)) (command : List Char) : Bool :=
  if jsIncludesL command "$(".toList || jsIncludesL command [backquoteChar] then false
  else if shellToolNames.any (fun nm => excludeTools.contains nm) then false
  else
    ((splitSeps command).map normalizeL).all fun cmd =>
      !((extractCommands excludeTools).any fun blocked => isPrefixedByL cmd blocked) &&
      (!(!(extractCommands coreTools).isEmpty &&
         !(shellToolNames.any fun nm => coreTools.contains nm)) ||
        ((extractCommands coreTools).any fun allowed => isPrefixedByL cmd allowed))

/-- `isCommandAllowed` at the `String` level. -/
def isCommandAllowedS (coreTools excludeTools : List String) (command : String) : Bool :=
  isCommandAllowed (coreTools.map String.toList) (excludeTools.map String.toList)
    command.toList

example : isCommandAllowedS [] ["run_shell_command(rm -rf /)"] "rm -rf / ; ls" = false := by
  decide

example : isCommandAllowedS ["run_shell_command(git status)"] [] "git status" = true := by
  decide

example : isCommandAllowedS ["run_shell_command(git status)"] [] "git push" = false := by
  decide

example : isCommandAllowedS ["run_shell_command(git status)"] [] "git status & rm x" = true := by
  decide

/-! ## CredentialCache and ConfirmationCoordinator
(`ShellTool` fields `sudoPassword`/`sudoPasswordTimestamp`/`whitelist` and
`ShellTool.shouldConfirmExecute`, src/unnamed/part_000 lines 33-38 and
183-229) -/

/-- `SUDO_CACHE_DURATION_MS = 15 * 60 * 1000`. -/
def SUDO_CACHE_DURATION_MS : Int := 15 * 60 * 1000

/-- The mutable `ShellTool` instance fields shared across invocations. -/
structure ShellToolState where
  whitelist : List String
  sudoPassword : Option String
  sudoPasswordTimestamp : Option Int

/-- JS truthiness of an optional string (`undefined` and `''` are falsy). -/
def truthyStr : Option String → Bool
  | none => false
  | some s => !(s == "")

/-- JS truthiness of an optional number (`undefined` and `0` are falsy). -/
def truthyInt : Option Int → Bool
  | none => false
  | some n => !(n == 0)

/-- `isPasswordCached = this.sudoPassword && this.sudoPasswordTimestamp &&
Date.now() - this.sudoPasswordTimestamp < this.SUDO_CACHE_DURATION_MS`. -/
def isPasswordCached (st : ShellToolState) (now : Int) : Bool :=
  truthyStr st.sudoPassword && truthyInt st.sudoPasswordTimestamp &&
    decide (now - st.sudoPasswordTimestamp.getD 0 < SUDO_CACHE_DURATION_MS)

/-- Fetching the cached elevation secret: the secret when the cache check
passes, absent otherwise (this is how `execute` consumes the cache:
it reads `this.sudoPassword` only behind `isPasswordCached`). -/
def cachedSecret (st : ShellToolState) (now : Int) : Option String :=
  if isPasswordCached st now then st.sudoPassword else none

/-- `ShellTool.getCommandRoot`:
`command.trim().replace(/[{}()]/g, '').split(/[\s;&|]+/)[0]?.split(/[/\\]/).pop()`.
The result is always a string here (JS can produce `undefined` only from an
empty split array, which cannot happen); the caller tests falsiness, i.e.
emptiness. -/
def stripGroupChars (l : List Char) : List Char :=
  l.filter fun c => !(c == '(' || c == ')' || c == lbraceChar || c == rbraceChar)

/-- The text before the first `[\s;&|]` separator. -/
def firstToken (l : List Char) : List Char :=
  l.takeWhile fun c => !(jsIsSpace c || c == ';' || c == '&' || c == '|')

/-- The text after the last `/` or `\` (path basename, `.split(/[/\\]/).pop()`). -/
def lastPathSegment (l : List Char) : List Char :=
  (l.reverse.takeWhile fun c => !(c == '/' || c == '\\')).reverse

def getCommandRoot (command : String) : String :=
  ⟨lastPathSegment (firstToken (stripGroupChars (trimL command.toList)))⟩

example : getCommandRoot "  /usr/bin/ls -la | grep foo" = "ls" := by decide

/-- `ShellToolParams`. -/
structure ShellToolParams where
  command : String
  description : Option String := none
  directory : Option String := none

/-- The environment a `ShellTool` instance closes over: policy config,
project root, platform, and the Node path/fs primitives (the latter are
opaque parameters of the model). -/
structure ShellEnv where
  coreTools : List String
  excludeTools : List String
  targetDir : String
  isWindows : Bool
  isAbsolutePath : String → Bool
  resolvePath : String → String → String
  existsSync : String → Bool

/-- `ShellTool.validateToolParams` (part_000 lines 150-181). Schema
validation is omitted: for well-typed `ShellToolParams` the declared JSON
schema always validates. JS truthiness of `params.directory` (skip the
directory checks when it is absent or empty) is modelled explicitly. -/
def validateToolParams (env : ShellEnv) (params : ShellToolParams) : Option String :=
  if !(isCommandAllowedS env.coreTools env.excludeTools params.command) then
    some ("Command is not allowed: " ++ params.command)
  else if jsTrimS params.command == "" then
    some "Command cannot be empty."
  else if getCommandRoot params.command == "" then
    some "Could not identify command root to obtain permission from user."
  else
    match params.directory with
    | none => none
    | some dir =>
      if dir == "" then none
      else if env.isAbsolutePath dir then
        some "Directory cannot be absolute. Must be relative to the project root directory."
      else if !(env.existsSync (env.resolvePath env.targetDir dir)) then
        some "Directory must exist."
      else none

/-- The confirmation request `shouldConfirmExecute` returns:
`noConfirm` models the JS `false` (proceed without prompting). -/
inductive ConfirmationKind where
  | noConfirm
  | passwordPrompt (title rootCommand : String)
  | execPrompt (title command rootCommand : String)
deriving DecidableEq

/-- `ToolConfirmationOutcome` (the variants the exec prompt can resolve to). -/
inductive ToolConfirmationOutcome where
  | proceedOnce
  | proceedAlways
  | cancel
deriving DecidableEq

/-- `ShellTool.shouldConfirmExecute` (part_000 lines 183-229). -/
def shouldConfirmExecute (env : ShellEnv) (st : ShellToolState)
    (params : ShellToolParams) (now : Int) : ConfirmationKind :=
  if (validateToolParams env params).isSome then ConfirmationKind.noConfirm
  else
    let rootCommand := getCommandRoot params.command
    let isSudo := jsStartsWith (jsTrimS params.command) "sudo "
    if isSudo && !env.isWindows && !(isPasswordCached st now) then
      ConfirmationKind.passwordPrompt "Sudo Password Required" "sudo"
    else if st.whitelist.contains rootCommand then ConfirmationKind.noConfirm
    else ConfirmationKind.execPrompt "Confirm Shell Command" params.command rootCommand

/-- The resolution callback of the password prompt (part_000 lines 205-208):
store the secret and a fresh timestamp. -/
def passwordOnConfirm (st : ShellToolState) (password : String) (now : Int) : ShellToolState :=
  { st with sudoPassword := some password, sudoPasswordTimestamp := some now }

/-- The resolution callback of the exec prompt (part_000 lines 222-226):
"always allow" inserts the root command into the session whitelist. -/
def execOnConfirm (st : ShellToolState) (rootCommand : String)
    (outcome : ToolConfirmationOutcome) : ShellToolState :=
  match outcome with
  | ToolConfirmationOutcome.proceedAlways =>
    { st with whitelist := st.whitelist.insert rootCommand }
  | _ => st

/-! ## Elevation command synthesis and spawn (`ShellTool.execute`,
src/unnamed/part_000 lines 251-294, and `executeShellCommand`,
src/unnamed/part_004 lines 44-91) -/

/-- `this.sudoPassword!.replace(/'/g, "'\\''")`: escape each apostrophe
for single-quoted shell usage. -/
def escapeSudoPasswordL : List Char → List Char
  | [] => []
  | c :: rest =>
    (if c == '\'' then ['\'', '\\', '\'', '\''] else [c]) ++ escapeSudoPasswordL rest

def escapeSudoPassword (pw : String) : String := ⟨escapeSudoPasswordL pw.toList⟩

/-- `s.replace(pat, repl)` for a nonempty literal pattern: replace the
first (leftmost) occurrence only. -/
def replaceFirstL (s pat repl : List Char) : List Char :=
  match s with
  | [] => []
  | c :: rest =>
    if pat.isPrefixOf (c :: rest) then repl ++ (c :: rest).drop pat.length
    else c :: replaceFirstL rest pat repl

def replaceFirst (s pat repl : String) : String := ⟨replaceFirstL s.toList pat.toList repl.toList⟩

/-- The wrapped elevation command (part_000 line 271 and part_004 line 62):
``echo '<escaped secret>' | <userCommand with first "sudo" replaced by "sudo -S --">``. -/
def sudoWrappedCommand (pw userCommand : String) : String :=
  "echo '" ++ escapeSudoPassword pw ++ "' | " ++ replaceFirst userCommand "sudo" "sudo -S --"

/-- The POSIX pgrep trailer wrap of `ShellTool.execute` (part_000 lines
285-290). Braces are written by code point (`lbraceChar`/`rbraceChar`). -/
def pgrepWrap (commandToExecute tempFilePath : String) : String :=
  let cmd := if !(jsEndsWith (jsTrimS commandToExecute) "&") then commandToExecute ++ ";"
             else commandToExecute
  lbraceChar.toString ++ " " ++ cmd ++ " " ++ rbraceChar.toString ++
    "; __code=$?; pgrep -g 0 >" ++ tempFilePath ++ " 2>&1; exit $__code;"

/-- The POSIX pwd trailer wrap of `executeShellCommand` (part_004 lines
69-77). -/
def pwdWrap (commandToExecute pwdFilePath : String) : String :=
  let cmd := if !(jsEndsWith (jsTrimS commandToExecute) "&") then commandToExecute ++ ";"
             else commandToExecute
  lbraceChar.toString ++ " " ++ cmd ++ " " ++ rbraceChar.toString ++
    "; __code=$?; pwd > \"" ++ pwdFilePath ++ "\"; exit $__code"

/-- The process spawn `ShellTool.execute` performs on a POSIX platform
(part_000 lines 251-294): program and argument vector, `none` when the
invocation is rejected because no valid elevation secret is cached. -/
def executeSpawn (st : ShellToolState) (params : ShellToolParams) (now : Int)
    (tempFilePath : String) : Option (String × List String) :=
  let isSudoCommand := jsStartsWith (jsTrimS params.command) "sudo "
  if isSudoCommand && !(isPasswordCached st now) then none
  else
    let commandToExecute :=
      if isSudoCommand then
        sudoWrappedCommand (st.sudoPassword.getD "") (jsTrimS params.command)
      else params.command
    some ("bash", ["-c", pgrepWrap commandToExecute tempFilePath])

/-- The process spawn `executeShellCommand` performs on a POSIX platform
(part_004 lines 44-91): `none` when it resolves early because the secret
is missing (JS falsiness: `undefined` or `''`). -/
def executeShellCommandSpawn (rawCommand : String) (sudoPassword : Option String)
    (pwdFilePath : String) : Option (String × List String) :=
  let isSudo := jsStartsWith (jsTrimS rawCommand) "sudo "
  if isSudo && !(truthyStr sudoPassword) then none
  else
    let commandToExecute :=
      if isSudo then sudoWrappedCommand (sudoPassword.getD "") (jsTrimS rawCommand)
      else rawCommand
    some ("bash", ["-c", pwdWrap commandToExecute pwdFilePath])

/-! ## ProcessExecutor event loop of `ShellTool.execute`
(src/unnamed/part_000 lines 296-358 and 410-430)

The child process's callbacks are modelled as a step function over the
executor-local accumulator plus the shared `ShellToolState` (the data
handlers clear the credential cache on a recognized elevation failure).
`data.toString()` is modelled by the event carrying the decoded string;
the `strip-ansi` library is an arbitrary function parameter. -/

/-- One event delivered to `ShellTool.execute`'s handlers. -/
inductive ToolExecEvent where
  | stdoutData (data : String)
  | stderrData (data : String)
  | errorEvent (message : String)
  | abortFired
  | exitEvent (code : Option Int) (signal : Option String)

/-- The executor-local mutable variables of `ShellTool.execute`. -/
structure ToolExecState where
  exited : Bool
  stdout : String
  stderr : String
  output : String
  code : Option Int
  processSignal : Option String
  errorMsg : Option String
  aborted : Bool

def initToolExecState : ToolExecState :=
  { exited := false, stdout := "", stderr := "", output := "",
    code := none, processSignal := none, errorMsg := none, aborted := false }

/-- The elevation-failure watch (part_000 lines 317 and 332):
`str.includes('sudo: a password is required') || str.includes('sudo: sorry, try again')`. -/
def hasSudoFailure (str : String) : Bool :=
  jsIncludes str "sudo: a password is required" || jsIncludes str "sudo: sorry, try again"

/-- One step of `ShellTool.execute`'s event handlers. -/
def toolExecStep (stripAnsiFn : String → String) (ts : ShellToolState)
    (es : ToolExecState) : ToolExecEvent → ShellToolState × ToolExecState
  | ToolExecEvent.stdoutData data =>
    if !es.exited then
      let str := stripAnsiFn data
      let ts' := if hasSudoFailure str then
          { ts with sudoPassword := none, sudoPasswordTimestamp := none }
        else ts
      (ts', { es with stdout := es.stdout ++ str, output := es.output ++ str })
    else (ts, es)
  | ToolExecEvent.stderrData data =>
    if !es.exited then
      let str := stripAnsiFn data
      let ts' := if hasSudoFailure str then
          { ts with sudoPassword := none, sudoPasswordTimestamp := none }
        else ts
      (ts', { es with stderr := es.stderr ++ str, output := es.output ++ str })
    else (ts, es)
  | ToolExecEvent.errorEvent m => (ts, { es with errorMsg := some m })
  | ToolExecEvent.abortFired => (ts, { es with aborted := true })
  | ToolExecEvent.exitEvent c s =>
    (ts, { es with exited := true, code := c, processSignal := s })

/-- Folding a list of events through `toolExecStep`. -/
def runToolExec (stripAnsiFn : String → String) (ts : ShellToolState)
    (es : ToolExecState) : List ToolExecEvent → ShellToolState × ToolExecState
  | [] => (ts, es)
  | e :: evs =>
    let p := toolExecStep stripAnsiFn ts es e
    runToolExec stripAnsiFn p.1 p.2 evs

/-- The `llmContent` built when the run was aborted (part_000 lines 411-417). -/
def abortedLlmContent (es : ToolExecState) : String :=
  if !(jsTrimS es.output == "") then
    "Command was cancelled by user before it could complete." ++
      " Below is the output (on stdout and stderr) before it was cancelled:\n" ++ es.output
  else
    "Command was cancelled by user before it could complete." ++
      " There was no output before it was cancelled."

/-- The final `llmContent` of `ShellTool.execute` (part_000 lines 410-430):
the cancellation message (with any partial output) when the abort signal
fired, the verbose transcript otherwise. `backgroundPIDs` and `pgid` come
from the pgrep scratch file and the child pid, outside this model. -/
def finalLlmContent (params : ShellToolParams) (es : ToolExecState)
    (backgroundPIDs : List Int) (pgid : Option Int) : String :=
  if es.aborted then abortedLlmContent es
  else
    "Command: " ++ params.command ++
    "\nDirectory: " ++ (let d := params.directory.getD ""; if d == "" then "(root)" else d) ++
    "\nStdout: " ++ (if es.stdout == "" then "(empty)" else es.stdout) ++
    "\nStderr: " ++ (if es.stderr == "" then "(empty)" else es.stderr) ++
    "\nError: " ++ (es.errorMsg.getD "(none)") ++
    "\nExit Code: " ++ (match es.code with | some c => toString c | none => "(none)") ++
    "\nSignal: " ++ (match es.processSignal with | some s => s | none => "(none)") ++
    "\nBackground PIDs: " ++ (if backgroundPIDs.length != 0 then
        String.intercalate ", " (backgroundPIDs.map toString) else "(none)") ++
    "\nProcess Group PGID: " ++ (match pgid with | some p => toString p | none => "(none)")

/-! ## ProcessExecutor/OutputAggregator event loop of `executeShellCommand`
(src/unnamed/part_004 lines 93-176)

Raw byte chunks are `List Nat`; the binary classifier (`isBinary` from
`utils/textUtils.ts`), `strip-ansi` and Node's incremental `StringDecoder`
are function parameters of the model (a decoder is state `List Nat` of
pending undecoded bytes plus a `write` producing decoded text and a final
`end` flush). The `onOutputChunk` callback is recorded as a list of
`UiChunk`s, one constructor per call site. -/

/-- The third-party/stdlib functions `executeShellCommand` closes over. -/
structure ExecEnv where
  isBinaryFn : List Nat → Bool
  stripAnsiFn : String → String
  decWrite : List Nat → List Nat → List Nat × String
  decEnd : List Nat → String

inductive StreamTag where
  | stdoutStream
  | stderrStream
deriving DecidableEq

/-- What one `onOutputChunk` call carried: decoded combined text, the
one-time binary-detected notice, or a byte-count progress notice. -/
inductive UiChunk where
  | text (s : String)
  | binaryHaltNotice
  | progressNotice (totalBytes : Nat)

/-- The `ShellExecutionResult` the promise resolves with. -/
structure CmdResult where
  rawOutput : List Nat
  output : String
  exitCode : Option Int
  signal : Option String
  errorMsg : Option String
  aborted : Bool

/-- The mutable variables of one `executeShellCommand` invocation,
plus the recorded UI callback calls and the resolved result. -/
structure CmdState where
  stdout : String
  stderr : String
  outputChunks : List (List Nat)
  errorMsg : Option String
  exited : Bool
  aborted : Bool
  streamToUi : Bool
  sniffedBytes : Nat
  stdoutDec : List Nat
  stderrDec : List Nat
  ui : List UiChunk
  result : Option CmdResult

def initCmdState : CmdState :=
  { stdout := "", stderr := "", outputChunks := [], errorMsg := none,
    exited := false, aborted := false, streamToUi := true, sniffedBytes := 0,
    stdoutDec := [], stderrDec := [], ui := [], result := none }

def MAX_SNIFF_SIZE : Nat := 4096

/-- `handleOutput(data, stream)` (part_004 lines 104-127). -/
def handleOutput (env : ExecEnv) (st : CmdState) (stream : StreamTag)
    (data : List Nat) : CmdState :=
  let st1 := { st with outputChunks := st.outputChunks ++ [data] }
  let st2 :=
    if st1.streamToUi && decide (st1.sniffedBytes < MAX_SNIFF_SIZE) then
      let sniffBuffer := (st1.outputChunks.take 20).flatten
      if env.isBinaryFn sniffBuffer then
        { st1 with
          sniffedBytes := sniffBuffer.length,
          streamToUi := false,
          ui := st1.ui ++ [UiChunk.binaryHaltNotice] }
      else { st1 with sniffedBytes := sniffBuffer.length }
    else st1
  let st3 :=
    match stream with
    | StreamTag.stdoutStream =>
      let dec := env.decWrite st2.stdoutDec data
      { st2 with stdout := st2.stdout ++ env.stripAnsiFn dec.2, stdoutDec := dec.1 }
    | StreamTag.stderrStream =>
      let dec := env.decWrite st2.stderrDec data
      { st2 with stderr := st2.stderr ++ env.stripAnsiFn dec.2, stderrDec := dec.1 }
  if !st3.exited && st3.streamToUi then
    { st3 with ui := st3.ui ++
        [UiChunk.text (st3.stdout ++ (if !(st3.stderr == "") then "\n" ++ st3.stderr else ""))] }
  else if !st3.exited && !st3.streamToUi then
    { st3 with ui := st3.ui ++ [UiChunk.progressNotice ((st3.outputChunks.map List.length).sum)] }
  else st3

/-- One event delivered to `executeShellCommand`'s handlers. -/
inductive CmdExecEvent where
  | dataEvent (stream : StreamTag) (data : List Nat)
  | errorEvent (message : String)
  | abortFired
  | exitEvent (code : Option Int) (signal : Option String)

/-- One step of `executeShellCommand`'s event handlers; the exit handler
(part_004 lines 155-175) flushes the decoders, concatenates the raw
chunks and resolves the promise. -/
def cmdExecStep (env : ExecEnv) (st : CmdState) : CmdExecEvent → CmdState
  | CmdExecEvent.dataEvent stream data => handleOutput env st stream data
  | CmdExecEvent.errorEvent m => { st with errorMsg := some m }
  | CmdExecEvent.abortFired => { st with aborted := true }
  | CmdExecEvent.exitEvent code signal =>
    let so := st.stdout ++ env.decEnd st.stdoutDec
    let se := st.stderr ++ env.decEnd st.stderrDec
    { st with
      exited := true,
      stdout := so,
      stderr := se,
      result := some
        { rawOutput := st.outputChunks.flatten,
          output := so ++ (if !(se == "") then "\n" ++ se else ""),
          exitCode := code,
          signal := signal,
          errorMsg := st.errorMsg,
          aborted := st.aborted } }

/-- Folding a list of events through `cmdExecStep`. -/
def runCmdExec (env : ExecEnv) (st : CmdState) : List CmdExecEvent → CmdState
  | [] => st
  | e :: evs => runCmdExec env (cmdExecStep env st e) evs

/-- The raw byte chunks delivered by the data events of an event list. -/
def dataChunksOf (evs : List CmdExecEvent) : List (List Nat) :=
  evs.filterMap fun e =>
    match e with
    | CmdExecEvent.dataEvent _ d => some d
    | _ => none

/-- Modelled from the spec: the binary classifier `isBinary` (repo file
`utils/textUtils.ts`, imported by part_004 but not among the sources).
The spec calls output binary when its sniffed bytes are non-text,
"e.g., raw NUL bytes": a buffer is binary iff it contains a NUL byte. -/
def isBinary (data : List Nat) : Bool := data.any fun b => b == 0

/-! ## Helper lemmas -/

/-- `replaceFirstL` replaces a nonempty pattern standing at the front. -/
theorem replaceFirstL_of_isPrefixOf (s pat repl : List Char)
    (hne : pat ≠ []) (h : pat.isPrefixOf s = true) :
    replaceFirstL s pat repl = repl ++ s.drop pat.length := by
  cases s with
  | nil =>
    cases pat with
    | nil => exact absurd rfl hne
    | cons a l => simp [List.isPrefixOf] at h
  | cons c rest => simp [replaceFirstL, h]

/-- Stepping `toolExecStep` from an exited accumulator never changes the
accumulated `stdout`, `stderr`, `output`, and keeps the `exited` flag. -/
theorem toolExec_frozen_aux (stripAnsiFn : String → String) :
    ∀ (evs : List ToolExecEvent) (ts : ShellToolState) (es : ToolExecState),
      es.exited = true →
      (runToolExec stripAnsiFn ts es evs).2.stdout = es.stdout ∧
      (runToolExec stripAnsiFn ts es evs).2.stderr = es.stderr ∧
      (runToolExec stripAnsiFn ts es evs).2.output = es.output ∧
      (runToolExec stripAnsiFn ts es evs).2.exited = true := by
  intro evs
  induction evs with
  | nil => intro ts es h; simp [runToolExec, h]
  | cons e evs ih =>
    intro ts es h
    have hstep : (toolExecStep stripAnsiFn ts es e).2.stdout = es.stdout ∧
        (toolExecStep stripAnsiFn ts es e).2.stderr = es.stderr ∧
        (toolExecStep stripAnsiFn ts es e).2.output = es.output ∧
        (toolExecStep stripAnsiFn ts es e).2.exited = true := by
      cases e <;> simp [toolExecStep, h]
    have hrun := ih (toolExecStep stripAnsiFn ts es e).1
      (toolExecStep stripAnsiFn ts es e).2 hstep.2.2.2
    exact ⟨hrun.1.trans hstep.1, hrun.2.1.trans hstep.2.1,
      hrun.2.2.1.trans hstep.2.2.1, hrun.2.2.2⟩

/-- `handleOutput` always appends exactly the incoming chunk to the raw
buffer and never touches `aborted`, `exited`, `errorMsg` or `result`. -/
theorem handleOutput_frame (env : ExecEnv) (st : CmdState) (stream : StreamTag)
    (data : List Nat) :
    (handleOutput env st stream data).outputChunks = st.outputChunks ++ [data] ∧
    (handleOutput env st stream data).aborted = st.aborted ∧
    (handleOutput env st stream data).exited = st.exited ∧
    (handleOutput env st stream data).errorMsg = st.errorMsg ∧
    (handleOutput env st stream data).result = st.result := by
  cases stream <;> (unfold handleOutput; dsimp only) <;> (repeat' split) <;> simp_all

/-- With the binary flag down, `handleOutput` keeps it down and appends
either nothing or one progress notice to the UI stream. -/
theorem handleOutput_flag_false (env : ExecEnv) (st : CmdState) (stream : StreamTag)
    (data : List Nat) (h : st.streamToUi = false) :
    (handleOutput env st stream data).streamToUi = false ∧
    ((handleOutput env st stream data).ui = st.ui ∨
     ∃ n, (handleOutput env st stream data).ui = st.ui ++ [UiChunk.progressNotice n]) := by
  cases stream <;> (unfold handleOutput; dsimp only) <;> (repeat' split) <;> simp_all

/-- A step from a binary-flagged state keeps the flag down and appends at
most a progress notice to the UI stream. -/
theorem cmdStep_flag_monotone (env : ExecEnv) (st : CmdState) (e : CmdExecEvent)
    (h : st.streamToUi = false) :
    (cmdExecStep env st e).streamToUi = false ∧
    ∃ tail, (cmdExecStep env st e).ui = st.ui ++ tail ∧
      ∀ u ∈ tail, ∃ n, u = UiChunk.progressNotice n := by
  cases e with
  | dataEvent stream data =>
    obtain ⟨h1, h2 | ⟨n, h2⟩⟩ := handleOutput_flag_false env st stream data h
    · exact ⟨h1, [], by simpa using h2, by simp⟩
    · exact ⟨h1, [UiChunk.progressNotice n], h2, by simp⟩
  | errorEvent m => exact ⟨h, [], by simp [cmdExecStep], by simp⟩
  | abortFired => exact ⟨h, [], by simp [cmdExecStep], by simp⟩
  | exitEvent c s => exact ⟨h, [], by simp [cmdExecStep], by simp⟩

/-- `runCmdExec` on a one-event list is one step. -/
theorem runCmdExec_singleton (env : ExecEnv) (st : CmdState) (e : CmdExecEvent) :
    runCmdExec env st [e] = cmdExecStep env st e := rfl

/-- `runCmdExec` over an appended event list. -/
theorem runCmdExec_append (env : ExecEnv) (evs1 evs2 : List CmdExecEvent) :
    ∀ st, runCmdExec env st (evs1 ++ evs2) = runCmdExec env (runCmdExec env st evs1) evs2 := by
  induction evs1 with
  | nil => intro st; rfl
  | cons e evs ih => intro st; exact ih (cmdExecStep env st e)

/-- Run-level version of `cmdStep_flag_monotone`. -/
theorem runCmd_flag_monotone (env : ExecEnv) :
    ∀ (evs : List CmdExecEvent) (st : CmdState), st.streamToUi = false →
      (runCmdExec env st evs).streamToUi = false ∧
      ∃ tail, (runCmdExec env st evs).ui = st.ui ++ tail ∧
        ∀ u ∈ tail, ∃ n, u = UiChunk.progressNotice n := by
  intro evs
  induction evs with
  | nil => exact fun st h => ⟨h, [], by simp [runCmdExec], by simp⟩
  | cons e evs ih =>
    intro st h
    obtain ⟨h1, tail1, hui1, hp1⟩ := cmdStep_flag_monotone env st e h
    obtain ⟨h2, tail2, hui2, hp2⟩ := ih (cmdExecStep env st e) h1
    refine ⟨h2, tail1 ++ tail2, ?_, ?_⟩
    · show (runCmdExec env (cmdExecStep env st e) evs).ui = st.ui ++ (tail1 ++ tail2)
      rw [hui2, hui1, List.append_assoc]
    · intro u hu
      rcases List.mem_append.mp hu with hu | hu
      · exact hp1 u hu
      · exact hp2 u hu

/-- The raw chunk buffer accumulated by a run is exactly the data chunks
of its events, in order. -/
theorem runCmd_chunks (env : ExecEnv) :
    ∀ (evs : List CmdExecEvent) (st : CmdState),
      (runCmdExec env st evs).outputChunks = st.outputChunks ++ dataChunksOf evs := by
  intro evs
  induction evs with
  | nil => intro st; simp [runCmdExec, dataChunksOf]
  | cons e evs ih =>
    intro st
    cases e with
    | dataEvent stream data =>
      show (runCmdExec env (handleOutput env st stream data) evs).outputChunks = _
      rw [ih, (handleOutput_frame env st stream data).1]
      simp [dataChunksOf, List.filterMap_cons]
    | errorEvent m =>
      show (runCmdExec env _ evs).outputChunks = _
      rw [ih]
      simp [cmdExecStep, dataChunksOf, List.filterMap_cons]
    | abortFired =>
      show (runCmdExec env _ evs).outputChunks = _
      rw [ih]
      simp [cmdExecStep, dataChunksOf, List.filterMap_cons]
    | exitEvent c s =>
      show (runCmdExec env _ evs).outputChunks = _
      rw [ih]
      simp [cmdExecStep, dataChunksOf, List.filterMap_cons]

/-- The `aborted` flag of the model latches (the abort signal never
un-aborts). -/
theorem runCmd_aborted_monotone (env : ExecEnv) :
    ∀ (evs : List CmdExecEvent) (st : CmdState), st.aborted = true →
      (runCmdExec env st evs).aborted = true := by
  intro evs
  induction evs with
  | nil => exact fun st h => h
  | cons e evs ih =>
    intro st h
    refine ih (cmdExecStep env st e) ?_
    cases e with
    | dataEvent stream data =>
      show (handleOutput env st stream data).aborted = true
      rw [(handleOutput_frame env st stream data).2.1]
      exact h
    | errorEvent m => exact h
    | abortFired => rfl
    | exitEvent c s => exact h

/-- `isBinary` over an append. -/
theorem isBinary_append (a b : List Nat) :
    isBinary (a ++ b) = (isBinary a || isBinary b) := List.any_append

/-- `isBinary` is antitone along prefixes: a text buffer has text prefixes. -/
theorem isBinary_false_of_prefix {a b : List Nat} (hpre : a <+: b)
    (h : isBinary b = false) : isBinary a = false := by
  obtain ⟨t, rfl⟩ := hpre
  rw [isBinary_append, Bool.or_eq_false_iff] at h
  exact h.1

/-- The sniff buffer of a run extends the sniff buffer of its prefix. -/
theorem flatten_take_prefix_append (L : List (List Nat)) (d : List Nat) (n : Nat) :
    ((L.take n).flatten) <+: (((L ++ [d]).take n).flatten) := by
  rw [List.take_append_eq_append_take, List.flatten_append]
  exact ⟨_, rfl⟩

/-- The C10 run invariant: as long as the concatenation of the first 20
chunks stays below the sniff cap and classifies as text, every state of
the run keeps streaming to the UI, its `sniffedBytes` is the sniff
buffer's size, its chunk buffer is the data delivered, and every UI
callback so far carried decoded text. -/
theorem sniff_text_invariant (env : ExecEnv) (henv : env.isBinaryFn = isBinary) :
    ∀ (evs : List CmdExecEvent),
      isBinary (((dataChunksOf evs).take 20).flatten) = false →
      (((dataChunksOf evs).take 20).flatten).length < MAX_SNIFF_SIZE →
      (runCmdExec env initCmdState evs).streamToUi = true ∧
      (runCmdExec env initCmdState evs).sniffedBytes =
        (((dataChunksOf evs).take 20).flatten).length ∧
      (∀ u ∈ (runCmdExec env initCmdState evs).ui, ∃ t, u = UiChunk.text t) := by
  intro evs
  induction evs using List.reverseRecOn with
  | nil =>
    intro _ _
    exact ⟨rfl, by simp [runCmdExec, initCmdState, dataChunksOf],
      by simp [runCmdExec, initCmdState]⟩
  | append_singleton evs e ih =>
    intro hbin hlen
    have hchunks_eq : dataChunksOf (evs ++ [e]) = dataChunksOf evs ++ dataChunksOf [e] := by
      simp [dataChunksOf, List.filterMap_append]
    cases e with
    | dataEvent stream data =>
      have hdce : dataChunksOf (evs ++ [CmdExecEvent.dataEvent stream data]) =
          dataChunksOf evs ++ [data] := by
        simp [dataChunksOf, List.filterMap_append, List.filterMap_cons]
      rw [hdce] at hbin hlen
      have hpre := flatten_take_prefix_append (dataChunksOf evs) data 20
      have hbin' : isBinary (((dataChunksOf evs).take 20).flatten) = false :=
        isBinary_false_of_prefix hpre hbin
      have hlen' : (((dataChunksOf evs).take 20).flatten).length < MAX_SNIFF_SIZE :=
        lt_of_le_of_lt hpre.length_le hlen
      obtain ⟨hui, hsniff, htext⟩ := ih hbin' hlen'
      have hoc : (runCmdExec env initCmdState evs).outputChunks = dataChunksOf evs := by
        rw [runCmd_chunks]
        simp [initCmdState]
      rw [runCmdExec_append, hdce, runCmdExec_singleton]
      cases stream <;>
      · unfold cmdExecStep handleOutput
        dsimp only
        simp only [hoc, hui, hsniff, henv, hbin, hlen', Bool.true_and, Bool.and_true,
          decide_eq_true_eq, if_true, Bool.false_eq_true, if_false]
        by_cases hex : (runCmdExec env initCmdState evs).exited = false
        · simp only [hex, Bool.not_false, Bool.true_and, if_true]
          refine ⟨by trivial, by trivial, ?_⟩
          intro u hu
          rcases List.mem_append.mp hu with hu | hu
          · exact htext u hu
          · rcases List.mem_singleton.mp hu with rfl
            exact ⟨_, rfl⟩
        · have hex' : (runCmdExec env initCmdState evs).exited = true := by
            revert hex
            cases (runCmdExec env initCmdState evs).exited <;> simp
          simp only [hex', Bool.not_true, Bool.false_and, Bool.false_eq_true, if_false]
          exact ⟨by trivial, by trivial, htext⟩
    | errorEvent m =>
      rw [hchunks_eq] at hbin hlen
      simp only [dataChunksOf, List.filterMap_cons, List.filterMap_nil,
        List.append_nil] at hbin hlen
      obtain ⟨hui, hsniff, htext⟩ := ih hbin hlen
      rw [runCmdExec_append, hchunks_eq]
      simp only [dataChunksOf, List.filterMap_cons, List.filterMap_nil, List.append_nil]
      exact ⟨hui, hsniff, htext⟩
    | abortFired =>
      rw [hchunks_eq] at hbin hlen
      simp only [dataChunksOf, List.filterMap_cons, List.filterMap_nil,
        List.append_nil] at hbin hlen
      obtain ⟨hui, hsniff, htext⟩ := ih hbin hlen
      rw [runCmdExec_append, hchunks_eq]
      simp only [dataChunksOf, List.filterMap_cons, List.filterMap_nil, List.append_nil]
      exact ⟨hui, hsniff, htext⟩
    | exitEvent c s =>
      rw [hchunks_eq] at hbin hlen
      simp only [dataChunksOf, List.filterMap_cons, List.filterMap_nil,
        List.append_nil] at hbin hlen
      obtain ⟨hui, hsniff, htext⟩ := ih hbin hlen
      rw [runCmdExec_append, hchunks_eq]
      simp only [dataChunksOf, List.filterMap_cons, List.filterMap_nil, List.append_nil]
      exact ⟨hui, hsniff, htext⟩

/-- The head surviving a `dropWhile` fails the predicate. -/
theorem head?_dropWhile_false (p : Char → Bool) (l : List Char) :
    ∀ c, (l.dropWhile p).head? = some c → p c = false := by
  induction l with
  | nil => simp
  | cons a l ih =>
    intro c h
    by_cases hp : p a = true
    · rw [List.dropWhile_cons, if_pos hp] at h
      exact ih c h
    · rw [List.dropWhile_cons, if_neg hp] at h
      cases h
      exact Bool.not_eq_true _ ▸ hp

/-- The first character of a trimmed string is not whitespace. -/
theorem trimL_head_not_space (l : List Char) :
    ∀ c, (trimL l).head? = some c → jsIsSpace c = false := by
  intro c hc
  unfold trimL at hc
  rw [List.head?_reverse] at hc
  set u := ((l.dropWhile jsIsSpace).reverse).dropWhile jsIsSpace with hu
  have hsuf : u <:+ (l.dropWhile jsIsSpace).reverse := List.dropWhile_suffix jsIsSpace
  have hune : u ≠ [] := by
    intro h0
    rw [h0] at hc
    cases hc
  obtain ⟨t, ht⟩ := hsuf
  have : u.getLast? = ((l.dropWhile jsIsSpace).reverse).getLast? := by
    rw [← ht]
    exact (List.getLast?_append_of_ne_nil t hune).symm
  rw [this, List.getLast?_reverse] at hc
  exact head?_dropWhile_false jsIsSpace l c hc

/-- The last character of a trimmed string is not whitespace. -/
theorem trimL_getLast_not_space (l : List Char) :
    ∀ c, (trimL l).getLast? = some c → jsIsSpace c = false := by
  intro c hc
  unfold trimL at hc
  rw [List.getLast?_reverse] at hc
  exact head?_dropWhile_false jsIsSpace _ c hc

/-- `squeezeWs` keeps a non-space head. -/
theorem squeezeWs_head (b : Char) (rest : List Char) (hb : jsIsSpace b = false) :
    (squeezeWs (b :: rest)).head? = some b := by
  cases rest with
  | nil => simp [squeezeWs, hb]
  | cons d rs => simp [squeezeWs, hb]

/-- `squeezeWs` of a nonempty list is nonempty. -/
theorem squeezeWs_ne_nil : ∀ (b : Char) (rest : List Char), squeezeWs (b :: rest) ≠ [] := by
  intro b rest
  induction rest generalizing b with
  | nil => by_cases hb : jsIsSpace b = true <;> simp [squeezeWs, hb]
  | cons d rs ih =>
    by_cases h : (jsIsSpace b && jsIsSpace d) = true <;> simp only [squeezeWs, h, if_true,
      Bool.false_eq_true, if_false]
    · exact ih d
    · simp

/-- `squeezeWs` output is in whitespace normal form whenever the input
does not end in whitespace. -/
theorem wsCanon_squeezeWs : ∀ (l : List Char),
    (∀ c, l.getLast? = some c → jsIsSpace c = false) → wsCanon (squeezeWs l) = true := by
  intro l
  induction l using squeezeWs.induct with
  | case1 => intro _; rfl
  | case2 c hws =>
    intro hlast
    rw [hlast c rfl] at hws
    exact (Bool.false_ne_true hws).elim
  | case3 c hws =>
    intro hlast
    have hc : jsIsSpace c = false := hlast c rfl
    simp [squeezeWs, hc, wsCanon]
  | case4 a b rest hab ih =>
    intro hlast
    rw [show squeezeWs (a :: b :: rest) = squeezeWs (b :: rest) by
      simp [squeezeWs, hab]]
    refine ih ?_
    intro c hc
    exact hlast c (by rw [List.getLast?_cons_cons]; exact hc)
  | case5 a b rest hab ih =>
    intro hlast
    have hab' : (jsIsSpace a && jsIsSpace b) = false := by
      revert hab
      cases jsIsSpace a && jsIsSpace b <;> simp
    have hbr : ∀ c, (b :: rest).getLast? = some c → jsIsSpace c = false := by
      intro c hc
      exact hlast c (by rw [List.getLast?_cons_cons]; exact hc)
    have hcanon := ih hbr
    have hne := squeezeWs_ne_nil b rest
    obtain ⟨hh, tt, hsq⟩ := List.exists_cons_of_ne_nil hne
    rw [show squeezeWs (a :: b :: rest) =
        (if jsIsSpace a then ' ' else a) :: squeezeWs (b :: rest) by
      simp [squeezeWs, hab']]
    rw [hsq] at hcanon ⊢
    show ((!(jsIsSpace (if jsIsSpace a then ' ' else a)) ||
        ((if jsIsSpace a then ' ' else a) == ' ' && !(jsIsSpace hh))) &&
        wsCanon (hh :: tt)) = true
    rw [hcanon, Bool.and_true]
    by_cases ha : jsIsSpace a = true
    · have hb : jsIsSpace b = false := by
        rw [ha, Bool.true_and] at hab'
        exact hab'
      have hhb : hh = b := by
        have := squeezeWs_head b rest hb
        rw [hsq] at this
        cases this
        rfl
      rw [if_pos ha, hhb, hb]
      simp
    · rw [if_neg ha]
      have ha' : jsIsSpace a = false := by
        revert ha; cases jsIsSpace a <;> simp
      rw [ha']
      simp

/-- A whitespace-normal-form list passes through `squeezeWs` untouched in
front of any continuation. -/
theorem squeezeWs_append_of_wsCanon : ∀ (a l : List Char), wsCanon a = true →
    squeezeWs (a ++ l) = a ++ squeezeWs l := by
  intro a
  induction a using wsCanon.induct with
  | case1 => intro l _; rfl
  | case2 c =>
    intro l hca
    have hc : jsIsSpace c = false := by
      revert hca
      simp [wsCanon]
    cases l with
    | nil => simp [squeezeWs, hc]
    | cons d ls =>
      show squeezeWs (c :: d :: ls) = c :: squeezeWs (d :: ls)
      have : (jsIsSpace c && jsIsSpace d) = false := by rw [hc]; rfl
      simp [squeezeWs, this, hc]
  | case3 a b rest ih =>
    intro l hca
    have hparts := hca
    simp only [wsCanon, Bool.and_eq_true] at hparts
    obtain ⟨hclause, hrest⟩ := hparts
    have hcond : (jsIsSpace a && jsIsSpace b) = false := by
      rcases Bool.or_eq_true_iff.mp hclause with h | h
      · rw [Bool.not_eq_true'] at h
        rw [h]
        rfl
      · simp only [Bool.and_eq_true] at h
        rw [Bool.not_eq_true'] at h
        rw [h.2, Bool.and_false]
    have he : (if jsIsSpace a then ' ' else a) = a := by
      by_cases ha : jsIsSpace a = true
      · rcases Bool.or_eq_true_iff.mp hclause with h | h
        · rw [Bool.not_eq_true'] at h
          rw [ha] at h
          cases h
        · simp only [Bool.and_eq_true] at h
          rw [if_pos ha]
          exact (beq_iff_eq.mp h.1).symm
      · rw [if_neg ha]
    show squeezeWs (a :: b :: (rest ++ l)) = a :: b :: rest ++ squeezeWs l
    rw [show squeezeWs (a :: b :: (rest ++ l)) =
        (if jsIsSpace a then ' ' else a) :: squeezeWs (b :: (rest ++ l)) by
      simp [squeezeWs, hcond]]
    rw [he]
    have := ih l hrest
    rw [show (b :: rest) ++ l = b :: (rest ++ l) from rfl] at this
    rw [this]
    rfl

/-- Trimming a command of the form `<a> & <s>` (with `a` starting
non-space): the front is untouched and the trailing trim stops at the
`&` at the latest. -/
theorem trimL_append_amp (a s : List Char) (hne : a ≠ [])
    (ha : ∀ c, a.head? = some c → jsIsSpace c = false) :
    trimL (a ++ ' ' :: '&' :: ' ' :: s) =
      a ++ ' ' :: '&' ::
        (if (List.dropWhile jsIsSpace s.reverse).isEmpty then []
         else ' ' :: (List.dropWhile jsIsSpace s.reverse).reverse) := by
  obtain ⟨c0, a', rfl⟩ := List.exists_cons_of_ne_nil hne
  have hc0 : jsIsSpace c0 = false := ha c0 rfl
  unfold trimL
  rw [List.cons_append, List.dropWhile_cons, if_neg (by rw [hc0]; exact Bool.false_ne_true)]
  rw [show (c0 :: (a' ++ ' ' :: '&' :: ' ' :: s)).reverse =
      s.reverse ++ ' ' :: '&' :: ' ' :: (c0 :: a').reverse by
    simp]
  rw [List.dropWhile_append]
  split
  · rw [show List.dropWhile jsIsSpace (' ' :: '&' :: ' ' :: (c0 :: a').reverse) =
        '&' :: ' ' :: (c0 :: a').reverse by
      rw [List.dropWhile_cons, if_pos (by decide), List.dropWhile_cons,
        if_neg (by decide)]]
    simp
  · simp

/-- Normalizing `<a> & <s>` when `a` is itself a normalized nonempty
command: the result is `a`, a space, the ampersand, and some tail — so
`a` survives as a space-bounded prefix. -/
theorem normalizeL_append_amp (y s : List Char) (hne : normalizeL y ≠ []) :
    ∃ t, normalizeL (normalizeL y ++ ' ' :: '&' :: ' ' :: s) =
      normalizeL y ++ ' ' :: '&' :: t := by
  have htne : trimL y ≠ [] := by
    intro h0
    apply hne
    unfold normalizeL
    rw [h0]
    rfl
  obtain ⟨c0, rest0, hty⟩ := List.exists_cons_of_ne_nil htne
  have hc0 : jsIsSpace c0 = false := trimL_head_not_space y c0 (by rw [hty]; rfl)
  have hhead : (normalizeL y).head? = some c0 := by
    unfold normalizeL
    rw [hty]
    exact squeezeWs_head c0 rest0 hc0
  have ha : ∀ c, (normalizeL y).head? = some c → jsIsSpace c = false := by
    intro c hc
    rw [hhead] at hc
    cases hc
    exact hc0
  have hcanon : wsCanon (normalizeL y) = true := by
    unfold normalizeL
    exact wsCanon_squeezeWs (trimL y) (trimL_getLast_not_space y)
  show ∃ t, squeezeWs (trimL (normalizeL y ++ ' ' :: '&' :: ' ' :: s)) =
    normalizeL y ++ ' ' :: '&' :: t
  rw [trimL_append_amp (normalizeL y) s hne ha]
  rw [squeezeWs_append_of_wsCanon (normalizeL y) _ hcanon]
  split
  · exact ⟨[], by rw [show squeezeWs (' ' :: '&' :: ([] : List Char)) = [' ', '&'] by decide]⟩
  · refine ⟨squeezeWs (' ' :: (List.dropWhile jsIsSpace s.reverse).reverse), ?_⟩
    rw [show squeezeWs (' ' :: '&' :: ' ' :: (List.dropWhile jsIsSpace s.reverse).reverse) =
        ' ' :: '&' :: squeezeWs (' ' :: (List.dropWhile jsIsSpace s.reverse).reverse) by
      rw [show squeezeWs (' ' :: '&' :: ' ' :: (List.dropWhile jsIsSpace s.reverse).reverse) =
          ' ' :: squeezeWs ('&' :: ' ' :: (List.dropWhile jsIsSpace s.reverse).reverse) by
        simp only [squeezeWs]
        rw [if_neg (by decide), if_pos (by decide)]]
      rw [show squeezeWs ('&' :: ' ' :: (List.dropWhile jsIsSpace s.reverse).reverse) =
          '&' :: squeezeWs (' ' :: (List.dropWhile jsIsSpace s.reverse).reverse) by
        simp only [squeezeWs]
        rw [if_neg (by decide), if_neg (by decide)]]]

/-- A command containing no `|`, no `;` and no `&&` is a single
sub-command for the gate's splitter (a lone `&` is not a separator). -/
theorem splitSeps_no_sep : ∀ (l : List Char),
    '|' ∉ l → ';' ∉ l → ¬(['&', '&'] <:+: l) → splitSeps l = [l] := by
  intro l
  induction l using splitSeps.induct with
  | case1 => intro _ _ _; rfl
  | case2 rest ih =>
    intro _ _ hamp
    exact absurd ⟨[], rest, rfl⟩ hamp
  | case3 rest ih =>
    intro hpipe _ _
    exact absurd (List.mem_cons_self _ _) hpipe
  | case4 rest hne ih =>
    intro hpipe _ _
    exact absurd (List.mem_cons_self _ _) hpipe
  | case5 rest ih =>
    intro _ hsemi _
    exact absurd (List.mem_cons_self _ _) hsemi
  | case6 c rest h1 h2 h3 h4 hsp ih =>
    intro hpipe hsemi hamp
    have hres : splitSeps rest = [rest] := by
      refine ih ?_ ?_ ?_
      · exact fun h => hpipe (List.mem_cons_of_mem c h)
      · exact fun h => hsemi (List.mem_cons_of_mem c h)
      · exact fun hin => hamp (List.infix_cons hin)
    rw [hres] at hsp
    cases hsp
  | case7 c rest h1 h2 h3 h4 s ss hsp ih =>
    intro hpipe hsemi hamp
    have hres : splitSeps rest = [rest] := by
      refine ih ?_ ?_ ?_
      · exact fun h => hpipe (List.mem_cons_of_mem c h)
      · exact fun h => hsemi (List.mem_cons_of_mem c h)
      · exact fun hin => hamp (List.infix_cons hin)
    rw [splitSeps.eq_def]
    split
    · rename_i x heq
      cases heq
    · rename_i x rest1 heq
      injection heq with he1 he2
      exact (h1 rest1 he1 he2).elim
    · rename_i x rest1 heq
      injection heq with he1 he2
      exact (h2 rest1 he1 he2).elim
    · rename_i x rest1 hnd heq
      injection heq with he1 he2
      exact (h3 he1).elim
    · rename_i x rest1 heq
      injection heq with he1 he2
      exact (h4 he1).elim
    · rename_i x c1 rest1 f1 f2 f3 f4 heq
      injection heq with he1 he2
      subst he1
      subst he2
      rw [hres]

/-- `includes` is substring (infix) occurrence. -/
theorem jsIncludesL_iff_substring (s pat : List Char) :
    jsIncludesL s pat = true ↔ pat <:+: s := by
  induction s with
  | nil =>
    show pat.isEmpty = true ↔ pat <:+: []
    rw [List.isEmpty_iff]
    constructor
    · rintro rfl
      exact List.infix_refl []
    · intro h
      exact List.eq_nil_of_infix_nil h
  | cons c rest ih =>
    show (pat.isPrefixOf (c :: rest) || jsIncludesL rest pat) = true ↔ _
    rw [Bool.or_eq_true, ih, List.isPrefixOf_iff_prefix, List.infix_cons_iff]

/-- A character occurs in a list iff its singleton is an infix. -/
theorem mem_iff_singleton_substring (c : Char) (l : List Char) : c ∈ l ↔ [c] <:+: l := by
  constructor
  · intro h
    obtain ⟨s, t, rfl⟩ := List.append_of_mem h
    exact ⟨s, t, by simp⟩
  · rintro ⟨s, t, rfl⟩
    simp

/-- Every extracted policy entry is a `normalize`d command body. -/
theorem extractCommands_mem_normal (tools : List (List Char)) (a : List Char)
    (h : a ∈ extractCommands tools) : ∃ y, a = normalizeL y := by
  unfold extractCommands at h
  rw [List.mem_flatMap] at h
  obtain ⟨tool, -, hmem⟩ := h
  revert hmem
  split
  · intro hmem
    rw [List.mem_singleton] at hmem
    exact ⟨_, hmem⟩
  · intro hmem
    cases hmem

/-- A list followed by a space prefix-matches itself under the gate's
boundary rule. -/
theorem isPrefixedByL_append_space (a t' : List Char) :
    isPrefixedByL (a ++ ' ' :: t') a = true := by
  unfold isPrefixedByL
  have h1 : a.isPrefixOf (a ++ ' ' :: t') = true := by
    rw [List.isPrefixOf_iff_prefix]
    exact ⟨' ' :: t', rfl⟩
  have h2 : (a ++ ' ' :: t').get? a.length = some ' ' := by
    rw [List.get?_eq_getElem?, List.getElem?_append_right (le_refl _)]
    simp
  rw [h1, h2]
  simp

/-- Characterization of the gate's accept/reject loop: with no command
substitution present and the tool not wholesale-excluded, acceptance is
exactly "every normalized sub-command avoids every deny prefix and, under
a strict allow-list, matches some allow prefix". -/
theorem isCommandAllowed_iff
    (coreTools excludeTools : List (List Char)) (command : List Char)
    (hsub : jsIncludesL command "$(".toList = false)
    (hbt : jsIncludesL command [backquoteChar] = false)
    (hexc : ∀ nm ∈ shellToolNames, nm ∉ excludeTools) :
    isCommandAllowed coreTools excludeTools command = true ↔
      ∀ sub ∈ (splitSeps command).map normalizeL,
        (∀ d ∈ extractCommands excludeTools, isPrefixedByL sub d = false) ∧
        ((extractCommands coreTools ≠ [] ∧ ∀ nm ∈ shellToolNames, nm ∉ coreTools) →
          ∃ a ∈ extractCommands coreTools, isPrefixedByL sub a = true) := by
  have hexc' : shellToolNames.any (fun nm => excludeTools.contains nm) = false := by
    simp only [List.any_eq_false]
    intro nm hnm
    simpa using hexc nm hnm
  unfold isCommandAllowed
  rw [hsub, hbt, hexc']
  simp only [Bool.or_self, Bool.false_eq_true, if_false]
  rw [List.all_eq_true]
  refine forall₂_congr fun sub hmem => ?_
  have hdeny : (((extractCommands excludeTools).any fun blocked => isPrefixedByL sub blocked)
      = false) ↔ ∀ d ∈ extractCommands excludeTools, isPrefixedByL sub d = false := by
    simp [List.any_eq_false]
  have hallow : (((extractCommands coreTools).any fun allowed => isPrefixedByL sub allowed)
      = true) ↔ ∃ a ∈ extractCommands coreTools, isPrefixedByL sub a = true := by
    simp [List.any_eq_true]
  have hstrictiff : ((!(extractCommands coreTools).isEmpty &&
        !(shellToolNames.any fun nm => coreTools.contains nm)) = true) ↔
      (extractCommands coreTools ≠ [] ∧ ∀ nm ∈ shellToolNames, nm ∉ coreTools) := by
    simp [Bool.and_eq_true, Bool.not_eq_true', List.any_eq_false,
      List.isEmpty_iff, List.contains, List.elem_iff]
  rw [Bool.and_eq_true, Bool.or_eq_true, Bool.not_eq_true', Bool.not_eq_true']
  constructor
  · rintro ⟨h1, h2⟩
    refine ⟨hdeny.mp h1, fun hs => ?_⟩
    rcases h2 with h2 | h2
    · rw [← hstrictiff] at hs
      rw [hs] at h2
      cases h2
    · exact hallow.mp h2
  · rintro ⟨h1, h2⟩
    refine ⟨hdeny.mpr h1, ?_⟩
    by_cases hS : (!(extractCommands coreTools).isEmpty &&
        !(shellToolNames.any fun nm => coreTools.contains nm)) = true
    · exact Or.inr (hallow.mpr (h2 (hstrictiff.mp hS)))
    · exact Or.inl (by revert hS; cases (!(extractCommands coreTools).isEmpty &&
        !(shellToolNames.any fun nm => coreTools.contains nm)) <;> simp)

/-! ## Claims -/

/-- C3: any command containing the substring `$(` or a backtick is
rejected by the gate, whatever the allow and deny lists hold (the check is
the gate's first test, before any allow/deny evaluation; its unconditional
quantification over both policy lists captures that order). -/
theorem gate_rejects_command_substitution
    (coreTools excludeTools : List (List Char)) (command : List Char)
    (h : jsIncludesL command "$(".toList = true ∨
         jsIncludesL command [backquoteChar] = true) :
    isCommandAllowed coreTools excludeTools command = false := by
  unfold isCommandAllowed
  rcases h with h | h <;> rw [h] <;> simp

/-- Witness for C3: `echo $(ls)` is rejected even though the unscoped
wildcard allow for the tool is present. -/
theorem gate_rejects_command_substitution_witness :
    jsIncludesL "echo $(ls)".toList "$(".toList = true ∧
    isCommandAllowed ["run_shell_command".toList] [] "echo $(ls)".toList = false :=
  ⟨by decide,
   gate_rejects_command_substitution ["run_shell_command".toList] [] "echo $(ls)".toList
     (Or.inl (by decide))⟩

/-- C1, counterexample: with the valid cached secret `hunter2` and the
elevation request `sudo ls`, both executors synthesize a spawn whose
argument vector (the `-c` script handed to the shell) contains the secret
string: the claim that the secret does not occur in the argument vector
handed to the process spawn call is false. -/
theorem sudo_secret_in_argv_counterexample :
    isPasswordCached ⟨[], some "hunter2", some 1⟩ 2 = true ∧
    jsStartsWith (jsTrimS "sudo ls") "sudo " = true ∧
    (executeSpawn ⟨[], some "hunter2", some 1⟩ ⟨"sudo ls", none, none⟩ 2 "/tmp/pg.tmp").map
        (fun pr => pr.2.any fun arg => jsIncludes arg "hunter2") = some true ∧
    (executeShellCommandSpawn "sudo ls" (some "hunter2") "/tmp/pwd.tmp").map
        (fun pr => pr.2.any fun arg => jsIncludes arg "hunter2") = some true := by
  refine ⟨by decide, by decide, by decide, by decide⟩

/-- C1, amended: with a currently-valid cached secret, both executors
synthesize the wrapped command
``echo '<escaped secret>' | sudo -S -- <rest of the user command>``:
the secret is delivered to the elevation mechanism through its standard
input (`-S` makes `sudo` read the password from stdin, piped from `echo`),
and `sudo`'s own invocation text after the pipe is secret-free — but the
secret does occur inside the single shell-script argument of the spawn
call itself. -/
theorem sudo_secret_piped_via_stdin_flag
    (st : ShellToolState) (params : ShellToolParams) (now : Int) (tmp pwdTmp : String)
    (pw : String) (hpw : st.sudoPassword = some pw)
    (hsudo : jsStartsWith (jsTrimS params.command) "sudo " = true)
    (hcached : isPasswordCached st now = true) :
    executeSpawn st params now tmp = some ("bash", ["-c",
      pgrepWrap ("echo '" ++ escapeSudoPassword pw ++ "' | " ++
        replaceFirst (jsTrimS params.command) "sudo" "sudo -S --") tmp]) ∧
    executeShellCommandSpawn params.command (some pw) pwdTmp = some ("bash", ["-c",
      pwdWrap ("echo '" ++ escapeSudoPassword pw ++ "' | " ++
        replaceFirst (jsTrimS params.command) "sudo" "sudo -S --") pwdTmp]) ∧
    replaceFirst (jsTrimS params.command) "sudo" "sudo -S --" =
      "sudo -S --" ++ (⟨(jsTrimS params.command).toList.drop 4⟩ : String) := by
  have hcomp := hcached
  simp only [isPasswordCached, Bool.and_eq_true] at hcomp
  have htp : truthyStr (some pw) = true := by
    have := hcomp.1.1
    rwa [hpw] at this
  have hpre : ("sudo".toList).isPrefixOf (jsTrimS params.command).toList = true := by
    unfold jsStartsWith at hsudo
    rw [List.isPrefixOf_iff_prefix] at hsudo ⊢
    exact List.IsPrefix.trans ⟨[' '], rfl⟩ hsudo
  refine ⟨?_, ?_, ?_⟩
  · simp [executeSpawn, hsudo, hcached, hpw, sudoWrappedCommand]
  · simp [executeShellCommandSpawn, hsudo, htp, sudoWrappedCommand]
  · unfold replaceFirst
    rw [replaceFirstL_of_isPrefixOf _ _ _ (by decide) hpre]
    rfl

/-- Witness for C1's amended theorem at the cached secret `hunter2` and
command `sudo ls`. -/
theorem sudo_secret_piped_via_stdin_flag_witness :
    (⟨[], some "hunter2", some 1⟩ : ShellToolState).sudoPassword = some "hunter2" ∧
    jsStartsWith (jsTrimS "sudo ls") "sudo " = true ∧
    isPasswordCached ⟨[], some "hunter2", some 1⟩ 2 = true ∧
    executeSpawn ⟨[], some "hunter2", some 1⟩ ⟨"sudo ls", none, none⟩ 2 "/tmp/pg.tmp" =
      some ("bash", ["-c",
        pgrepWrap ("echo '" ++ escapeSudoPassword "hunter2" ++ "' | " ++
          replaceFirst (jsTrimS "sudo ls") "sudo" "sudo -S --") "/tmp/pg.tmp"]) :=
  ⟨rfl, by decide, by decide,
   (sudo_secret_piped_via_stdin_flag ⟨[], some "hunter2", some 1⟩ ⟨"sudo ls", none, none⟩
      2 "/tmp/pg.tmp" "/tmp/pwd.tmp" "hunter2" rfl (by decide) (by decide)).1⟩

/-- C5: a not-yet-exited stdout or stderr data chunk whose
ANSI-stripped text contains a recognized elevation-failure phrase makes
the step clear both credential-cache fields, so fetching the cached
secret afterwards reports absent at every `now`, TTL notwithstanding. -/
theorem sudo_failure_clears_credential_cache
    (stripAnsiFn : String → String) (ts : ShellToolState) (es : ToolExecState)
    (data : String) (e : ToolExecEvent)
    (hex : es.exited = false)
    (hph : hasSudoFailure (stripAnsiFn data) = true)
    (he : e = ToolExecEvent.stdoutData data ∨ e = ToolExecEvent.stderrData data) :
    (toolExecStep stripAnsiFn ts es e).1.sudoPassword = none ∧
    (toolExecStep stripAnsiFn ts es e).1.sudoPasswordTimestamp = none ∧
    (∀ now, isPasswordCached (toolExecStep stripAnsiFn ts es e).1 now = false) ∧
    (∀ now, cachedSecret (toolExecStep stripAnsiFn ts es e).1 now = none) := by
  rcases he with rfl | rfl <;>
    simp [toolExecStep, hex, hph, isPasswordCached, cachedSecret, truthyStr]

/-- Witness for C5 at the literal failure phrase on stdout. -/
theorem sudo_failure_clears_credential_cache_witness :
    initToolExecState.exited = false ∧
    hasSudoFailure (id "sudo: sorry, try again") = true ∧
    (toolExecStep id ⟨[], some "pw", some 1⟩ initToolExecState
        (ToolExecEvent.stdoutData "sudo: sorry, try again")).1.sudoPassword = none :=
  ⟨rfl, by decide,
   (sudo_failure_clears_credential_cache id ⟨[], some "pw", some 1⟩ initToolExecState
      "sudo: sorry, try again" _ rfl (by decide) (Or.inl rfl)).1⟩

/-- C4: for a validated `sudo` command on a POSIX platform, a cache
entry holding a (nonempty) secret issued at a (nonzero) timestamp less
than 15 minutes old suppresses the password prompt; an empty cache or a
secret aged 15 minutes or more is treated as absent and produces the
`Password` confirmation, whose resolution stores the new secret with a
fresh timestamp. (The nonemptiness/nonzero side conditions are the JS
truthiness of the two cache fields, which the source relies on; a secret
stored by the resolution callback at any positive `Date.now()` satisfies
them.) -/
theorem sudo_cache_controls_password_prompt
    (env : ShellEnv) (st : ShellToolState) (params : ShellToolParams) (now : Int)
    (hwin : env.isWindows = false)
    (hval : validateToolParams env params = none)
    (hsudo : jsStartsWith (jsTrimS params.command) "sudo " = true) :
    ((∃ pw ts, st.sudoPassword = some pw ∧ pw ≠ "" ∧
        st.sudoPasswordTimestamp = some ts ∧ ts ≠ 0 ∧
        now - ts < SUDO_CACHE_DURATION_MS) →
      ∀ t r, shouldConfirmExecute env st params now ≠ ConfirmationKind.passwordPrompt t r) ∧
    ((st.sudoPassword = none ∨ st.sudoPasswordTimestamp = none ∨
        (∃ ts, st.sudoPasswordTimestamp = some ts ∧ SUDO_CACHE_DURATION_MS ≤ now - ts)) →
      shouldConfirmExecute env st params now =
        ConfirmationKind.passwordPrompt "Sudo Password Required" "sudo" ∧
      ∀ pw2 now2, (passwordOnConfirm st pw2 now2).sudoPassword = some pw2 ∧
        (passwordOnConfirm st pw2 now2).sudoPasswordTimestamp = some now2) := by
  constructor
  · rintro ⟨pw, ts, hpw, hpwne, hts, htsne, hlt⟩ t r
    have hc : isPasswordCached st now = true := by
      simp [isPasswordCached, hpw, hts, truthyStr, truthyInt, hpwne, htsne, hlt]
    simp only [shouldConfirmExecute, hval, hsudo, hwin, hc, Option.isSome_none,
      Bool.false_eq_true, if_false, Bool.not_false, Bool.not_true, Bool.and_true,
      Bool.and_false, Bool.true_and, Bool.false_and]
    split <;> simp
  · intro hcase
    have hc : isPasswordCached st now = false := by
      rcases hcase with h | h | ⟨ts, hts, hge⟩
      · simp [isPasswordCached, h, truthyStr]
      · simp [isPasswordCached, h, truthyInt]
      · have hnlt : ¬(now - ts < SUDO_CACHE_DURATION_MS) := by omega
        simp [isPasswordCached, hts, hnlt]
    refine ⟨?_, fun pw2 now2 => ⟨rfl, rfl⟩⟩
    simp [shouldConfirmExecute, hval, hsudo, hwin, hc]

/-- Witness for C4: with an empty cache the prompt appears; with the
fresh secret `hunter2` it does not. -/
theorem sudo_cache_controls_password_prompt_witness :
    validateToolParams ⟨[], [], "", false, fun _ => false, fun _ d => d, fun _ => true⟩
        ⟨"sudo ls", none, none⟩ = none ∧
    shouldConfirmExecute ⟨[], [], "", false, fun _ => false, fun _ d => d, fun _ => true⟩
        ⟨[], none, none⟩ ⟨"sudo ls", none, none⟩ 5 =
      ConfirmationKind.passwordPrompt "Sudo Password Required" "sudo" ∧
    shouldConfirmExecute ⟨[], [], "", false, fun _ => false, fun _ d => d, fun _ => true⟩
        ⟨[], some "hunter2", some 1⟩ ⟨"sudo ls", none, none⟩ 5 ≠
      ConfirmationKind.passwordPrompt "Sudo Password Required" "sudo" :=
  ⟨rfl,
   ((sudo_cache_controls_password_prompt
       ⟨[], [], "", false, fun _ => false, fun _ d => d, fun _ => true⟩
       ⟨[], none, none⟩ ⟨"sudo ls", none, none⟩ 5 rfl rfl (by decide)).2
      (Or.inl rfl)).1,
   (sudo_cache_controls_password_prompt
       ⟨[], [], "", false, fun _ => false, fun _ d => d, fun _ => true⟩
       ⟨[], some "hunter2", some 1⟩ ⟨"sudo ls", none, none⟩ 5 rfl rfl (by decide)).1
     ⟨"hunter2", 1, rfl, by decide, rfl, by decide, by decide⟩
     "Sudo Password Required" "sudo"⟩

/-- C2: with no command substitution in the command and the tool not
wholesale-excluded, the gate accepts exactly when every normalized
sub-command obtained by splitting on the top-level separators `&&`, `||`,
`|`, `;` avoids every deny-entry prefix and — when allow entries exist
and no unscoped wildcard allow exists — prefix-matches some allow entry
(prefix boundary: end of string or a following space). The spec's
schematic entry tag `tool(...)` is this tool's name, so the concrete
examples use `run_shell_command(...)`: the deny entry `rm -rf /` rejects
`rm -rf / ; ls`, and under the allow-list `{git status}` with no wildcard
`git status` passes while `git push` fails. -/
theorem gate_split_prefix_policy
    (coreTools excludeTools : List (List Char)) (command : List Char)
    (hsub : jsIncludesL command "$(".toList = false)
    (hbt : jsIncludesL command [backquoteChar] = false)
    (hexc : ∀ nm ∈ shellToolNames, nm ∉ excludeTools) :
    (isCommandAllowed coreTools excludeTools command = true ↔
      ∀ sub ∈ (splitSeps command).map normalizeL,
        (∀ d ∈ extractCommands excludeTools, isPrefixedByL sub d = false) ∧
        ((extractCommands coreTools ≠ [] ∧ ∀ nm ∈ shellToolNames, nm ∉ coreTools) →
          ∃ a ∈ extractCommands coreTools, isPrefixedByL sub a = true)) ∧
    isCommandAllowedS [] ["run_shell_command(rm -rf /)"] "rm -rf / ; ls" = false ∧
    isCommandAllowedS ["run_shell_command(git status)"] [] "git status" = true ∧
    isCommandAllowedS ["run_shell_command(git status)"] [] "git push" = false :=
  ⟨isCommandAllowed_iff coreTools excludeTools command hsub hbt hexc,
   by decide, by decide, by decide⟩

/-- Witness for C2: the deny-entry example derived through the theorem. -/
theorem gate_split_prefix_policy_witness :
    isCommandAllowedS [] ["run_shell_command(rm -rf /)"] "rm -rf / ; ls" = false :=
  (gate_split_prefix_policy [] [] "git status".toList (by decide) (by decide)
    (by decide)).2.1

/-- C9: the exit event sets the `exited` flag, and from an exited
accumulator every further event (in particular any further stdout or
stderr data event) leaves the accumulated `stdout`, `stderr` and combined
`output` unchanged — the final text fields hold only bytes received
before the foreground process exited. -/
theorem output_frozen_after_exit
    (stripAnsiFn : String → String) (ts : ShellToolState) (es : ToolExecState)
    (h : es.exited = true) :
    (∀ (ts0 : ShellToolState) (es0 : ToolExecState) c s,
       (toolExecStep stripAnsiFn ts0 es0 (ToolExecEvent.exitEvent c s)).2.exited = true) ∧
    (∀ evs, (runToolExec stripAnsiFn ts es evs).2.stdout = es.stdout ∧
            (runToolExec stripAnsiFn ts es evs).2.stderr = es.stderr ∧
            (runToolExec stripAnsiFn ts es evs).2.output = es.output) := by
  refine ⟨fun ts0 es0 c s => rfl, fun evs => ?_⟩
  have := toolExec_frozen_aux stripAnsiFn evs ts es h
  exact ⟨this.1, this.2.1, this.2.2.1⟩

/-- C6: binary detection is one-way within an invocation — once the
combined output is flagged binary (`streamToUi = false`) no continuation
of the run ever reverts it, and from that point the live-output callback
receives only byte-count progress notices, never decoded text; and the
final result's raw byte buffer holds every output byte produced, before
and after the flag was set. -/
theorem binary_flag_one_way (env : ExecEnv) :
    (∀ evs1 evs2, (runCmdExec env initCmdState evs1).streamToUi = false →
       (runCmdExec env initCmdState (evs1 ++ evs2)).streamToUi = false ∧
       ∃ tail, (runCmdExec env initCmdState (evs1 ++ evs2)).ui =
           (runCmdExec env initCmdState evs1).ui ++ tail ∧
         ∀ u ∈ tail, ∃ n, u = UiChunk.progressNotice n) ∧
    (∀ evs c s, ∃ r,
       (runCmdExec env initCmdState (evs ++ [CmdExecEvent.exitEvent c s])).result = some r ∧
       r.rawOutput = (dataChunksOf evs).flatten) := by
  constructor
  · intro evs1 evs2 h
    rw [runCmdExec_append]
    exact runCmd_flag_monotone env evs2 _ h
  · intro evs c s
    rw [runCmdExec_append]
    refine ⟨_, rfl, ?_⟩
    show (runCmdExec env initCmdState evs).outputChunks.flatten = _
    rw [runCmd_chunks]
    simp [initCmdState]

/-- Witness for C6: a NUL byte flags the stream; the flag survives a
later textual chunk, and the exit result still carries both bytes. -/
theorem binary_flag_one_way_witness :
    (runCmdExec ⟨isBinary, id, fun dec _d => (dec, ""), fun _ => ""⟩ initCmdState
        [CmdExecEvent.dataEvent StreamTag.stdoutStream [0]]).streamToUi = false ∧
    (runCmdExec ⟨isBinary, id, fun dec _d => (dec, ""), fun _ => ""⟩ initCmdState
        ([CmdExecEvent.dataEvent StreamTag.stdoutStream [0]] ++
         [CmdExecEvent.dataEvent StreamTag.stdoutStream [65]])).streamToUi = false ∧
    ∃ r, (runCmdExec ⟨isBinary, id, fun dec _d => (dec, ""), fun _ => ""⟩ initCmdState
        ([CmdExecEvent.dataEvent StreamTag.stdoutStream [0],
          CmdExecEvent.dataEvent StreamTag.stdoutStream [65]] ++
         [CmdExecEvent.exitEvent (some 0) none])).result = some r ∧
      r.rawOutput = (dataChunksOf [CmdExecEvent.dataEvent StreamTag.stdoutStream [0],
          CmdExecEvent.dataEvent StreamTag.stdoutStream [65]]).flatten := by
  refine ⟨rfl, ?_, ?_⟩
  · exact ((binary_flag_one_way ⟨isBinary, id, fun dec _d => (dec, ""), fun _ => ""⟩).1
      [CmdExecEvent.dataEvent StreamTag.stdoutStream [0]]
      [CmdExecEvent.dataEvent StreamTag.stdoutStream [65]] rfl).1
  · exact (binary_flag_one_way ⟨isBinary, id, fun dec _d => (dec, ""), fun _ => ""⟩).2
      [CmdExecEvent.dataEvent StreamTag.stdoutStream [0],
       CmdExecEvent.dataEvent StreamTag.stdoutStream [65]] (some 0) none

/-- C7: a cancelled run never leaves the caller blocked — the exit event
always resolves the promise with a result carrying `aborted = true`
(the abort flag latches), the complete raw bytes, and the decoded output
captured up to the cancellation; and in the `ShellTool` executor the
aborted transcript reports the partial output rather than discarding it.
(That the process's exit event eventually fires after the SIGTERM/SIGKILL
escalation is an operating-system guarantee outside this embedding; the
theorem covers everything the code contributes: every exit resolves, and
the resolution preserves the partial output.) -/
theorem cancelled_run_always_resolves (env : ExecEnv) :
    (∀ evs c s, (runCmdExec env initCmdState evs).aborted = true →
       ∃ r, (runCmdExec env initCmdState (evs ++ [CmdExecEvent.exitEvent c s])).result = some r ∧
         r.aborted = true ∧
         r.rawOutput = (dataChunksOf evs).flatten ∧
         r.output = ((runCmdExec env initCmdState evs).stdout ++
             env.decEnd (runCmdExec env initCmdState evs).stdoutDec) ++
           (if !(((runCmdExec env initCmdState evs).stderr ++
               env.decEnd (runCmdExec env initCmdState evs).stderrDec) == "") then
             "\n" ++ ((runCmdExec env initCmdState evs).stderr ++
               env.decEnd (runCmdExec env initCmdState evs).stderrDec)
           else "")) ∧
    (∀ (params : ShellToolParams) (es : ToolExecState) (bg : List Int) (pgid : Option Int),
       es.aborted = true → (jsTrimS es.output == "") = false →
       finalLlmContent params es bg pgid =
         ("Command was cancelled by user before it could complete." ++
          " Below is the output (on stdout and stderr) before it was cancelled:\n") ++
           es.output) := by
  constructor
  · intro evs c s h
    rw [runCmdExec_append]
    refine ⟨_, rfl, h, ?_, rfl⟩
    show (runCmdExec env initCmdState evs).outputChunks.flatten = _
    rw [runCmd_chunks]
    simp [initCmdState]
  · intro params es bg pgid ha hout
    simp [finalLlmContent, abortedLlmContent, ha, hout]

/-- Witness for C7 at an aborted run with one output chunk. -/
theorem cancelled_run_always_resolves_witness :
    (runCmdExec ⟨isBinary, id, fun dec _d => (dec, ""), fun _ => ""⟩ initCmdState
        [CmdExecEvent.abortFired]).aborted = true ∧
    (∃ r, (runCmdExec ⟨isBinary, id, fun dec _d => (dec, ""), fun _ => ""⟩ initCmdState
        ([CmdExecEvent.abortFired] ++ [CmdExecEvent.exitEvent (some 0) none])).result = some r ∧
      r.aborted = true) ∧
    ({ initToolExecState with aborted := true, output := "hi" } : ToolExecState).aborted = true ∧
    finalLlmContent ⟨"sleep 5", none, none⟩
        { initToolExecState with aborted := true, output := "hi" } [] none =
      ("Command was cancelled by user before it could complete." ++
       " Below is the output (on stdout and stderr) before it was cancelled:\n") ++ "hi" := by
  refine ⟨rfl, ?_, rfl, ?_⟩
  · obtain ⟨r, h1, h2, -, -⟩ :=
      (cancelled_run_always_resolves ⟨isBinary, id, fun dec _d => (dec, ""), fun _ => ""⟩).1
        [CmdExecEvent.abortFired] (some 0) none rfl
    exact ⟨r, h1, h2⟩
  · exact (cancelled_run_always_resolves
      ⟨isBinary, id, fun dec _d => (dec, ""), fun _ => ""⟩).2
      ⟨"sleep 5", none, none⟩ { initToolExecState with aborted := true, output := "hi" }
      [] none rfl (by decide)

/-- C10: binary sniffing inspects only the concatenation of the first 20
output chunks — if that concatenation totals fewer than `MAX_SNIFF_SIZE`
bytes and classifies as text, the stream is never flagged binary (even if
a later chunk contains binary bytes) and the live callback receives only
decoded text. Stated against the spec-modelled `isBinary` classifier
(NUL-byte detection); decoder and ANSI stripper stay arbitrary. -/
theorem sniff_inspects_only_first_20_chunks (env : ExecEnv)
    (henv : env.isBinaryFn = isBinary) (evs : List CmdExecEvent)
    (hbin : isBinary (((dataChunksOf evs).take 20).flatten) = false)
    (hlen : (((dataChunksOf evs).take 20).flatten).length < MAX_SNIFF_SIZE) :
    (runCmdExec env initCmdState evs).streamToUi = true ∧
    ∀ u ∈ (runCmdExec env initCmdState evs).ui, ∃ t, u = UiChunk.text t := by
  obtain ⟨h1, -, h3⟩ := sniff_text_invariant env henv evs hbin hlen
  exact ⟨h1, h3⟩

/-- Witness for C10: twenty one-byte text chunks followed by a NUL-byte
chunk — the stream is still streaming text at the end. -/
theorem sniff_inspects_only_first_20_chunks_witness :
    isBinary (((dataChunksOf
        (List.replicate 20 (CmdExecEvent.dataEvent StreamTag.stdoutStream [65]) ++
         [CmdExecEvent.dataEvent StreamTag.stdoutStream [0]])).take 20).flatten) = false ∧
    (runCmdExec ⟨isBinary, id, fun dec _d => (dec, ""), fun _ => ""⟩ initCmdState
        (List.replicate 20 (CmdExecEvent.dataEvent StreamTag.stdoutStream [65]) ++
         [CmdExecEvent.dataEvent StreamTag.stdoutStream [0]])).streamToUi = true := by
  refine ⟨by decide, ?_⟩
  exact (sniff_inspects_only_first_20_chunks
    ⟨isBinary, id, fun dec _d => (dec, ""), fun _ => ""⟩ rfl
    (List.replicate 20 (CmdExecEvent.dataEvent StreamTag.stdoutStream [65]) ++
     [CmdExecEvent.dataEvent StreamTag.stdoutStream [0]])
    (by decide) (by decide)).1

/-- Witness for C9: after an exit, a further stdout chunk is dropped. -/
theorem output_frozen_after_exit_witness :
    (toolExecStep id ⟨[], none, none⟩ initToolExecState
        (ToolExecEvent.exitEvent (some 0) none)).2.exited = true ∧
    (runToolExec id ⟨[], none, none⟩
        { initToolExecState with exited := true, stdout := "before" }
        [ToolExecEvent.stdoutData "after"]).2.stdout = "before" :=
  ⟨(output_frozen_after_exit id ⟨[], none, none⟩
      { initToolExecState with exited := true, stdout := "before" } rfl).1
      ⟨[], none, none⟩ initToolExecState (some 0) none,
   ((output_frozen_after_exit id ⟨[], none, none⟩
      { initToolExecState with exited := true, stdout := "before" } rfl).2
      [ToolExecEvent.stdoutData "after"]).1⟩

/-- C8, counterexample: the claim fails for the empty allow entry. The
config entry `run_shell_command()` contributes the allow entry `a = ""`
(so a strict allow-list exists and no wildcard is present); with
`s = "ls"` the command `"a & s" = " & ls"` contains none of
`$(`, backtick, `&&`, `||`, `|`, `;` and prefix-matches no deny entry
(the deny list is empty), yet the gate rejects it: the empty entry fails
the prefix-boundary test against the normalized sub-command `"& ls"`. -/
theorem single_amp_empty_allow_entry_counterexample :
    ("" : String).toList ∈ extractCommands (["run_shell_command()"].map String.toList) ∧
    (∀ nm ∈ shellToolNames, nm ∉ (["run_shell_command()"].map String.toList)) ∧
    jsIncludesL " & ls".toList "$(".toList = false ∧
    jsIncludesL " & ls".toList [backquoteChar] = false ∧
    jsIncludesL " & ls".toList ['|'] = false ∧
    jsIncludesL " & ls".toList [';'] = false ∧
    jsIncludesL " & ls".toList ['&', '&'] = false ∧
    " & ls".toList = ("" : String).toList ++ ' ' :: '&' :: ' ' :: "ls".toList ∧
    isCommandAllowedS ["run_shell_command()"] [] " & ls" = false := by
  refine ⟨by decide, by decide, by decide, by decide, by decide, by decide, by decide,
    by decide, by decide⟩

/-- C8, amended: for every *nonempty* allow entry `a` and every suffix
`s`, if the command `a & s` (with single `&`) contains no `$(`, backtick,
`&&`, `||`, `|` or `;` and prefix-matches no deny entry, and the tool is
not wholesale-excluded, the command is accepted under a strict allow-list
regardless of `s`: a lone `&` is not a splitting separator, so the whole
line is one sub-command, which prefix-matches `a` at the space boundary —
the text after the `&` is never matched against the allow or deny lists. -/
theorem single_amp_not_a_separator
    (coreTools excludeTools : List (List Char)) (a s : List Char)
    (ha : a ∈ extractCommands coreTools) (hane : a ≠ [])
    (_hnw : ∀ nm ∈ shellToolNames, nm ∉ coreTools)
    (hnx : ∀ nm ∈ shellToolNames, nm ∉ excludeTools)
    (hsub : jsIncludesL (a ++ ' ' :: '&' :: ' ' :: s) "$(".toList = false)
    (hbt : jsIncludesL (a ++ ' ' :: '&' :: ' ' :: s) [backquoteChar] = false)
    (hpipe : jsIncludesL (a ++ ' ' :: '&' :: ' ' :: s) ['|'] = false)
    (hsemi : jsIncludesL (a ++ ' ' :: '&' :: ' ' :: s) [';'] = false)
    (hamp2 : jsIncludesL (a ++ ' ' :: '&' :: ' ' :: s) ['&', '&'] = false)
    (hdeny : ∀ d ∈ extractCommands excludeTools,
       isPrefixedByL (normalizeL (a ++ ' ' :: '&' :: ' ' :: s)) d = false) :
    isCommandAllowed coreTools excludeTools (a ++ ' ' :: '&' :: ' ' :: s) = true := by
  have hpipe' : '|' ∉ a ++ ' ' :: '&' :: ' ' :: s := by
    rw [mem_iff_singleton_substring, ← jsIncludesL_iff_substring, hpipe]
    exact Bool.false_ne_true
  have hsemi' : ';' ∉ a ++ ' ' :: '&' :: ' ' :: s := by
    rw [mem_iff_singleton_substring, ← jsIncludesL_iff_substring, hsemi]
    exact Bool.false_ne_true
  have hamp' : ¬(['&', '&'] <:+: a ++ ' ' :: '&' :: ' ' :: s) := by
    rw [← jsIncludesL_iff_substring, hamp2]
    exact Bool.false_ne_true
  rw [isCommandAllowed_iff coreTools excludeTools _ hsub hbt hnx]
  intro sub hsubmem
  rw [splitSeps_no_sep _ hpipe' hsemi' hamp'] at hsubmem
  rw [List.map_cons, List.map_nil, List.mem_singleton] at hsubmem
  subst hsubmem
  refine ⟨hdeny, fun _ => ?_⟩
  obtain ⟨y, hy⟩ := extractCommands_mem_normal coreTools a ha
  have hamp := normalizeL_append_amp y s (by rw [← hy]; exact hane)
  rw [← hy] at hamp
  obtain ⟨t, ht⟩ := hamp
  refine ⟨a, ha, ?_⟩
  rw [ht]
  exact isPrefixedByL_append_space a ('&' :: t)

/-- Witness for C8's amended theorem: with the strict allow-list
`{git status}`, the command `git status & rm -rf /` is accepted (the text
after `&` is not checked). -/
theorem single_amp_not_a_separator_witness :
    isCommandAllowedS ["run_shell_command(git status)"] [] "git status & rm -rf /" = true := by
  show isCommandAllowed (["run_shell_command(git status)"].map String.toList) []
      "git status & rm -rf /".toList = true
  rw [show "git status & rm -rf /".toList =
      "git status".toList ++ ' ' :: '&' :: ' ' :: "rm -rf /".toList by decide]
  exact single_amp_not_a_separator (["run_shell_command(git status)"].map String.toList) []
    "git status".toList "rm -rf /".toList (by decide) (by decide) (by decide) (by decide)
    (by decide) (by decide) (by decide) (by decide) (by decide)
    (fun d hd => absurd hd (List.not_mem_nil d))

end GeminiShell
